import Mathlib

/-!
Verification of the TPU estimator infeed/training core
(`tensorflow/contrib/tpu/python/tpu/tpu_estimator.py`).

The Python source is shallowly embedded: the feeder background thread
becomes a pure function over the list of signals it will consume, the
`Queue.Queue` signal channel becomes an explicit FIFO state threaded
through an operation list, the session-lifecycle hook together with the
feeder thread becomes a small-step interleaving system, and the graph
building helpers (`_create_infeed_enqueue_ops_and_dequeue_fn`,
`_verify_estimator_spec`, `train_step`, `_train_on_tpu_shards`,
placement) become pure functions.  `tpu.shard` and
`training_loop.repeat` are not part of this repository's sources and
are modelled from the spec where noted.
-/

namespace TpuEstimatorModel

/-- The two control signals of `_SIGNAL` (`NEXT_BATCH = 1`, `STOP = 2`). -/
inductive Signal where
  | NEXT_BATCH
  | STOP
deriving DecidableEq, Repr

/-- Observable events of the feeder background thread
(`InfeedThreadController._input_thread_fn_for_loading`):
consulting the signal queue (`self._signal_queue.get()`), one
`session.run(enqueue_ops)` call, the `count += 1` increment, and the
`return` on `STOP`. -/
inductive FEv where
  | consult
  | enq
  | incr
  | stopExit
deriving DecidableEq, Repr

/-- The body of `_input_thread_fn_for_loading`, run over the finite list
of signals the thread will consume, producing its event trace.  The
source loops: `signal = self._signal_queue.get()`; on `STOP` it logs and
returns; otherwise it runs `session.run(enqueue_ops)` for
`i in range(iterations)` and then does `count += 1` before looping back
to `get()`.  An empty remaining signal list models the thread blocked on
`get()` with nothing further arriving. -/
def feederRun (sigs : List Signal) (iterations count : Nat) : List FEv :=
  match sigs with
  | [] => []
  | s :: rest =>
    FEv.consult ::
      (match s with
       | Signal.STOP => [FEv.stopExit]
       | Signal.NEXT_BATCH =>
           List.replicate iterations FEv.enq ++ FEv.incr ::
             feederRun rest iterations (count + 1))

/-- State of the unbounded FIFO signal channel (`Queue.Queue`) together
with the histories needed to state exactly-once delivery: the queue
contents (front first), the signals received so far (in receive order),
and the signals sent so far (in send order). -/
structure ChanState (α : Type) where
  queue : List α
  received : List α
  sent : List α
deriving Repr

/-- One channel operation: `some a` is `put a` (never blocks, appends at
the back), `none` is a `get` attempt (takes the front element when one
is available; with an empty queue the caller stays blocked and the state
is unchanged). -/
def chanStep {α : Type} (st : ChanState α) (op : Option α) : ChanState α :=
  match op with
  | some a => { st with queue := st.queue ++ [a], sent := st.sent ++ [a] }
  | none =>
    match st.queue with
    | [] => st
    | a :: rest => { st with queue := rest, received := st.received ++ [a] }

/-- Run a sequence of interleaved sends and receive attempts from an
empty channel. -/
def chanRun {α : Type} (ops : List (Option α)) : ChanState α :=
  ops.foldl chanStep ⟨[], [], []⟩

/-- The function `_tpu_job`: `None` when `run_config.master` is `''` or
`'local'`, else the fixed job name `'tpu_worker'`. -/
def tpu_job (master : String) : Option String :=
  if master = "" ∨ master = "local" then none else some "tpu_worker"

/-- The `placement_function` closure inside `enqueue_fn`: with no job it
is the fixed local device; with a job it formats
`'/job:%s/replica:0/task:%d/device:CPU:0' % (job, index / 8)`.  Under
`from __future__ import division`, `index / 8` is float division, and
`%d` truncates the float; for the nonnegative shard indices used this
equals natural-number division by 8, which is how it is embedded. -/
def placement_function (job : Option String) (index : Nat) : String :=
  match job with
  | none => "/replica:0/task:0/device:CPU:0"
  | some j =>
      "/job:" ++ j ++ "/replica:0/task:" ++ toString (index / 8) ++
        "/device:CPU:0"

/-- Observable events of one training session under
`TpuInfeedSessionHook` together with the feeder thread: running the
initialization op (`session.run(self._init_op)`), starting the feeder
thread, putting a `NEXT_BATCH` (`load_next_batch` from `before_run`),
putting the `STOP` (first half of `join`), the thread consuming a
`NEXT_BATCH`, one `session.run(enqueue_ops)` by the thread, the thread
consuming `STOP` and exiting, and running the finalize op
(`session.run(self._finalize_op)` at the end of `end`). -/
inductive LEv where
  | initOp
  | startFeeder
  | signalNext
  | signalStop
  | consumeNext
  | enqueueRun
  | stopConsumed
  | shutdownOp
deriving DecidableEq, Repr

/-- Control position of the host thread driving the hook callbacks:
about to run the init op in `after_create_session`, about to construct
the `InfeedThreadController` (which starts the thread), inside the
training loop with `remaining` `before_run` callbacks left, blocked in
`self._input_thd.join()` after putting `STOP`, and finished (finalize op
run). -/
inductive HostPhase where
  | beforeInit (numRuns : Nat)
  | beforeStart (numRuns : Nat)
  | running (remaining : Nat)
  | joining
  | done
deriving DecidableEq, Repr

/-- Lifecycle of the feeder background thread: not yet started, blocked
on `self._signal_queue.get()`, executing the enqueue loop with
`remaining` `session.run(enqueue_ops)` calls left for the current
signal, and exited. -/
inductive ThreadState where
  | notStarted
  | waiting
  | working (remaining : Nat)
  | exited
deriving DecidableEq, Repr

/-- Combined state of one training session: the host's phase, the feeder
thread's state, the pending signal queue, `iterations_per_loop`, and the
chronological event trace. -/
structure Sys where
  host : HostPhase
  thread : ThreadState
  queue : List Signal
  iterations : Nat
  trace : List LEv
deriving Repr

/-- One step of the host thread, following the hook callback order of
`TpuInfeedSessionHook`: `after_create_session` runs the init op and then
starts the feeder; each `before_run` puts one `NEXT_BATCH`; `end` puts
`STOP`, waits in `join()` until the thread has exited, and then runs the
shutdown op.  When blocked in `join()` with the thread still live,
nothing happens. -/
def hostStep (s : Sys) : Sys :=
  match s.host with
  | HostPhase.beforeInit n =>
      { s with host := HostPhase.beforeStart n,
               trace := s.trace ++ [LEv.initOp] }
  | HostPhase.beforeStart n =>
      { s with host := HostPhase.running n,
               thread := ThreadState.waiting,
               trace := s.trace ++ [LEv.startFeeder] }
  | HostPhase.running remaining =>
      match remaining with
      | 0 =>
          { s with host := HostPhase.joining,
                   queue := s.queue ++ [Signal.STOP],
                   trace := s.trace ++ [LEv.signalStop] }
      | k + 1 =>
          { s with host := HostPhase.running k,
                   queue := s.queue ++ [Signal.NEXT_BATCH],
                   trace := s.trace ++ [LEv.signalNext] }
  | HostPhase.joining =>
      if s.thread = ThreadState.exited then
        { s with host := HostPhase.done,
                 trace := s.trace ++ [LEv.shutdownOp] }
      else s
  | HostPhase.done => s

/-- One step of the feeder thread
(`_input_thread_fn_for_loading`): when waiting with a pending signal,
consume it (`STOP` exits, `NEXT_BATCH` begins `iterations` enqueue
runs); when mid-batch, perform one `session.run(enqueue_ops)`; when the
batch is finished, go back to waiting on the queue.  A thread that is
not started, exited, or waiting on an empty queue does nothing. -/
def threadStep (s : Sys) : Sys :=
  match s.thread with
  | ThreadState.notStarted => s
  | ThreadState.exited => s
  | ThreadState.waiting =>
      match s.queue with
      | [] => s
      | Signal.NEXT_BATCH :: rest =>
          { s with thread := ThreadState.working s.iterations,
                   queue := rest,
                   trace := s.trace ++ [LEv.consumeNext] }
      | Signal.STOP :: rest =>
          { s with thread := ThreadState.exited,
                   queue := rest,
                   trace := s.trace ++ [LEv.stopConsumed] }
  | ThreadState.working remaining =>
      match remaining with
      | 0 => { s with thread := ThreadState.waiting }
      | k + 1 =>
          { s with thread := ThreadState.working k,
                   trace := s.trace ++ [LEv.enqueueRun] }

/-- One interleaving step: the scheduler chooses the host thread
(`true`) or the feeder thread (`false`). -/
def sysStep (c : Bool) (s : Sys) : Sys :=
  if c then hostStep s else threadStep s

/-- Initial session state: host about to run `after_create_session`
with `numRuns` loop iterations ahead, thread not yet started, fresh
empty signal queue. -/
def sysInit (numRuns iterations : Nat) : Sys :=
  ⟨HostPhase.beforeInit numRuns, ThreadState.notStarted, [], iterations, []⟩

/-- Run the session under an arbitrary finite schedule of interleaving
choices. -/
def sysRun (choices : List Bool) (numRuns iterations : Nat) : Sys :=
  choices.foldl (fun s c => sysStep c s) (sysInit numRuns iterations)

/-- Every occurrence of `b` in `l` has an occurrence of `a` strictly
before it. -/
def precedes {α : Type} (a b : α) (l : List α) : Prop :=
  ∀ n : Nat, l[n]? = some b → ∃ m : Nat, m < n ∧ l[m]? = some a

/-- A tensor as far as this core observes it: an element type, a shape,
and opaque payload data. -/
structure Tensor where
  dtype : String
  shape : List Nat
  data : Int
deriving DecidableEq, Repr

/-- The `features` argument of
`_create_infeed_enqueue_ops_and_dequeue_fn`: either a name-addressed
mapping (a `dict`, embedded as its insertion-ordered pair list) or a
single anonymous tensor. -/
inductive Features where
  | named (pairs : List (String × Tensor))
  | anon (t : Tensor)
deriving DecidableEq, Repr

/-- Python dict lookup `features[name]` over the insertion-ordered pair
list; the first binding wins (a real dict has unique keys). -/
def dictLookup : List (String × Tensor) → String → Option Tensor
  | [], _ => none
  | (k, v) :: rest, n => if k = n then some v else dictLookup rest n

/-- The build-time half of `_create_infeed_enqueue_ops_and_dequeue_fn`:
`infeed_names` is the fixed name ordering (`[name for name in
features]`, `None` for anonymous features) and the ordered
`infeed_tuple` is `[features[name] for name in infeed_names]` (or the
single anonymous tensor) with `labels` appended last. -/
def buildInfeed (features : Features) (labels : Tensor) :
    Option (List String) × List Tensor :=
  match features with
  | Features.named pairs =>
      let infeed_names := pairs.map Prod.fst
      (some infeed_names, infeed_names.filterMap (dictLookup pairs) ++ [labels])
  | Features.anon t => (none, [t] ++ [labels])

/-- The result of `dequeue_fn`: either the raw dequeued value tuple
(anonymous features) or the rebuilt name→tensor mapping plus the
trailing label. -/
inductive DequeueResult where
  | raw (values : List Tensor)
  | nameMapped (feats : List (String × Tensor)) (label : Option Tensor)
deriving DecidableEq, Repr

/-- The closure `dequeue_fn`, applied to the `values` produced by
`infeed_queue.generate_dequeue_op()` (the dequeued tuple): with no
recorded names it returns `values` unchanged; otherwise it rebuilds
`dequeued_features[infeed_names[i]] = values[i]` for
`i in range(len(values) - 1)` and takes `label = values[-1]`. -/
def dequeue_fn (infeed_names : Option (List String)) (values : List Tensor) :
    DequeueResult :=
  match infeed_names with
  | none => DequeueResult.raw values
  | some names =>
      DequeueResult.nameMapped
        ((List.range (values.length - 1)).filterMap fun i =>
          match names[i]?, values[i]? with
          | some n, some v => some (n, v)
          | _, _ => none)
        values.getLast?

/-- Modelled from the spec: the hardware input-queue API (`tpu_feed`'s
`InfeedQueue`, absent from this repository's sources) transports the
enqueued tuple to the dequeue side unchanged per shard —
"`enqueue(per_shard_values, placement)`, `dequeue() → values`" with the
tuple of types/shapes "used for enqueue exactly match[ing] the tuple
used for dequeue". -/
def infeedQueueTransport (infeed_tuple : List Tensor) : List Tensor :=
  infeed_tuple

/-- The fields of `model_fn_lib.EstimatorSpec` that
`_convert_model_fn_to_train_step` reads; hooks are identified by
name. -/
structure EstimatorSpec where
  loss : Int
  train_op : String
  training_chief_hooks : List String
  training_hooks : List String
deriving DecidableEq, Repr

/-- The closure `_verify_estimator_spec`: raises `ValueError` when the
returned spec carries `training_chief_hooks` or `training_hooks`
(Python truthiness, i.e. a nonempty collection), else returns the spec
unchanged. -/
def verify_estimator_spec (spec : EstimatorSpec) :
    Except String EstimatorSpec :=
  if spec.training_chief_hooks ≠ [] then
    Except.error
      "training_chief_hooks returned by EstimatorSpec is not supported in TPUEstimator."
  else if spec.training_hooks ≠ [] then
    Except.error
      "training_hooks returned by EstimatorSpec is not supported in TPUEstimator."
  else Except.ok spec

/-- The op built by `train_step` after validation succeeds:
`identity(loss)` under `control_dependencies([train_op])`. -/
structure BuiltStepOp where
  loss : Int
  control_dep : String
deriving DecidableEq, Repr

/-- The graph-building tail of `train_step`: validate the spec returned
by `_call_model_fn` and, only on success, build the identity-of-loss op
sequenced after the spec's `train_op`. -/
def train_step_build (spec : EstimatorSpec) : Except String BuiltStepOp :=
  match verify_estimator_spec spec with
  | Except.error e => Except.error e
  | Except.ok s => Except.ok ⟨s.loss, s.train_op⟩

/-- Graph events of one on-device training step at infeed queue
position `pos`: running the spec's `train_op`, then reading the loss
(`identity(loss)` under `control_dependencies([train_op])` — the
control dependency makes the op run precede the loss read). -/
inductive TEv where
  | runTrainOp (pos : Nat)
  | readLoss (pos : Nat)
deriving DecidableEq, Repr

/-- Loop-carried state of the per-shard loop: the infeed queue position
of the next dequeue, the carried loss value, and the step event
trace. -/
structure StepCarry where
  pos : Nat
  loss : Int
  trace : List TEv
deriving DecidableEq, Repr

/-- The closure `train_step` from `_convert_model_fn_to_train_step`,
for a model function whose validated spec at queue position `p` has
loss `lossOf p`: it discards the carried loss (`del loss`), dequeues
the next batch (advancing the queue position), runs the user model
function, and returns `identity(loss)` sequenced after the spec's
`train_op`. -/
def train_step (lossOf : Nat → Int) (c : StepCarry) : StepCarry :=
  { pos := c.pos + 1
    loss := lossOf c.pos
    trace := c.trace ++ [TEv.runTrainOp c.pos, TEv.readLoss c.pos] }

/-- Modelled from the spec: `training_loop.repeat` (absent from this
repository's sources) is the "bounded repeat-loop primitive
`repeat(count, body_fn, initial_carry)`" — the body applied `count`
times starting from the initial carried value. -/
def training_loop_repeat {α : Type} (count : Nat) (body : α → α)
    (init : α) : α :=
  match count with
  | 0 => init
  | n + 1 => training_loop_repeat n body (body init)

/-- The constant `1e7` passed by `train_shard` as `initial_loss` (a
float in the source, carried opaquely; embedded as the integer
10000000). -/
def initial_loss : Int := 10000000

/-- The closure `train_shard` inside `_train_on_tpu_shards`: repeats
`train_step` for `iterations_per_loop` iterations seeded with the
`initial_loss` carry, dequeueing this shard's stream from
position 0. -/
def train_shard (lossOf : Nat → Int) (iterations_per_loop : Nat) :
    StepCarry :=
  training_loop_repeat iterations_per_loop (train_step lossOf)
    ⟨0, initial_loss, []⟩

/-- Modelled from the spec: `tpu.shard` (absent from this repository's
sources) "replicates that closure identically across `num_shards`
shards"; with `outputs_from_all_shards=False` it returns "only one
shard's final loss as the representative" — the first shard's
outputs. -/
def tpu_shard {α : Type} (f : Nat → α) (num_shards : Nat)
    (outputs_from_all_shards : Bool) : List α :=
  let outputs := (List.range num_shards).map f
  if outputs_from_all_shards then outputs else outputs.take 1

/-- The function `_train_on_tpu_shards`: shards `train_shard` across
`num_shards` with `outputs_from_all_shards=False` and destructures the
single returned output `(loss,)`.  Here `lossOf s p` is the validated
loss of shard `s`'s batch at queue position `p`. -/
def train_on_tpu_shards (num_shards iterations_per_loop : Nat)
    (lossOf : Nat → Nat → Int) : Option Int :=
  (tpu_shard (fun s => (train_shard (lossOf s) iterations_per_loop).loss)
      num_shards false).head?

/-- The `config` object given to `TpuEstimator.__init__`: either a
`tpu_config.RunConfig` (with the fields the wrapper reads) or an object
of some other type. -/
inductive ConfigObj where
  | tpuRunConfig (master : String) (num_shards iterations_per_loop : Nat)
  | otherConfig (typeName : String)
deriving DecidableEq, Repr

/-- The check `isinstance(config, tpu_config.RunConfig)`. -/
def isTpuRunConfig : ConfigObj → Bool
  | ConfigObj.tpuRunConfig _ _ _ => true
  | ConfigObj.otherConfig _ => false

/-- The constructor `TpuEstimator.__init__`: wraps the model function,
calls the base constructor, and raises `ValueError` unless `config` is
a `tpu_config.RunConfig`; only that type check can fail in this
embedding. -/
def tpuEstimator_init (config : ConfigObj) : Except String Unit :=
  if isTpuRunConfig config then Except.ok ()
  else Except.error "`config` must be `tpu_config.RunConfig`"

/-- The state of the target graph as seen by `_create_global_step`:
whether `training.get_global_step(graph)` already finds a global-step
variable (its name when present). -/
structure Graph where
  global_step : Option String
deriving DecidableEq, Repr

/-- The method `TpuEstimator._create_global_step`: raises `ValueError`
when the graph already defines a global step, else creates and returns
the variable named by `GraphKeys.GLOBAL_STEP`. -/
def create_global_step (graph : Graph) : Except String String :=
  match graph.global_step with
  | some _ => Except.error "\"global_step\" already exists."
  | none => Except.ok "global_step"

/-- The mode keys of `model_fn_lib.ModeKeys`. -/
inductive ModeKeys where
  | TRAIN
  | EVAL
  | PREDICT
deriving DecidableEq, Repr

/-- Graph-construction actions `_model_fn` (from `wrapped_model_fn`)
can perform: calling the user model function, building the infeed
queue pair, building the sharded training loop, and attaching the two
training hooks. -/
inductive BuildAction where
  | callUserModelFn
  | buildInfeedQueue
  | buildShardedLoop
  | attachInfeedHook
  | attachLoggingHook
deriving DecidableEq, Repr

/-- The closure `_model_fn` returned by `wrapped_model_fn`: for any
mode other than `TRAIN` it returns `model_fn(features, labels, mode)`
directly; for `TRAIN` it builds the infeed enqueue/dequeue pair, the
sharded loop (which calls the user model function on dequeued
tensors), and attaches the infeed and logging hooks, returning a
rebuilt spec instead of a direct result.  The first component is the
directly-returned user result (`none` on the `TRAIN` path), the second
the list of graph actions performed. -/
def wrapped_model_fn_apply {F L R : Type} (model_fn : F → L → ModeKeys → R)
    (features : F) (labels : L) (mode : ModeKeys) :
    Option R × List BuildAction :=
  if mode ≠ ModeKeys.TRAIN then
    (some (model_fn features labels mode), [BuildAction.callUserModelFn])
  else
    (none,
     [BuildAction.buildInfeedQueue, BuildAction.buildShardedLoop,
      BuildAction.callUserModelFn, BuildAction.attachInfeedHook,
      BuildAction.attachLoggingHook])

/-- Expected event trace of `iterations_per_loop` training steps
starting at infeed queue position `p`: each iteration runs its
`train_op` and then reads its loss. -/
def stepTrace (p n : Nat) : List TEv :=
  match n with
  | 0 => []
  | m + 1 => TEv.runTrainOp p :: TEv.readLoss p :: stepTrace (p + 1) m

theorem takeWhile_replicate_append {α : Type} (p : α → Bool) (a : α)
    (h : p a = true) (n : Nat) (l : List α) :
    (List.replicate n a ++ l).takeWhile p = List.replicate n a ++ l.takeWhile p := by
  induction n with
  | zero => simp
  | succ k ih => simp [List.replicate_succ, List.takeWhile_cons, h, ih]

theorem dropWhile_replicate_append {α : Type} (p : α → Bool) (a : α)
    (h : p a = true) (n : Nat) (l : List α) :
    (List.replicate n a ++ l).dropWhile p = l.dropWhile p := by
  induction n with
  | zero => simp
  | succ k ih => simp [List.replicate_succ, List.dropWhile_cons, h, ih]

/-- Claim C1: for every NEXT_BATCH signal consumed, the feeder thread
consults the queue, then performs exactly `iterations` enqueue
executions and one count increment before consulting the queue again
(the continuation runs with `count + 1`); on consuming STOP it exits
the loop without executing any enqueue operation. -/
theorem feeder_signal_processing (rest : List Signal)
    (iterations count : Nat) :
    (feederRun (Signal.NEXT_BATCH :: rest) iterations count).head? =
      some FEv.consult ∧
    (feederRun (Signal.NEXT_BATCH :: rest) iterations count).tail.takeWhile
        (fun e => e != FEv.consult) =
      List.replicate iterations FEv.enq ++ [FEv.incr] ∧
    (feederRun (Signal.NEXT_BATCH :: rest) iterations count).tail.dropWhile
        (fun e => e != FEv.consult) =
      feederRun rest iterations (count + 1) ∧
    feederRun (Signal.STOP :: rest) iterations count =
      [FEv.consult, FEv.stopExit] := by
  refine ⟨rfl, ?_, ?_, rfl⟩
  · show (List.replicate iterations FEv.enq ++
        FEv.incr :: feederRun rest iterations (count + 1)).takeWhile _ = _
    rw [takeWhile_replicate_append _ _ (by decide)]
    cases rest with
    | nil => simp [feederRun, List.takeWhile_cons]
    | cons s rest' => simp [feederRun, List.takeWhile_cons]
  · show (List.replicate iterations FEv.enq ++
        FEv.incr :: feederRun rest iterations (count + 1)).dropWhile _ = _
    rw [dropWhile_replicate_append _ _ (by decide)]
    cases rest with
    | nil => simp [feederRun, List.dropWhile_cons]
    | cons s rest' => simp [feederRun, List.dropWhile_cons]

theorem chanRun_foldl_inv {α : Type} (ops : List (Option α))
    (st : ChanState α) (h : st.received ++ st.queue = st.sent) :
    (ops.foldl chanStep st).received ++ (ops.foldl chanStep st).queue =
      (ops.foldl chanStep st).sent := by
  induction ops generalizing st with
  | nil => exact h
  | cons op rest ih =>
    rw [List.foldl_cons]
    apply ih
    cases op with
    | some a =>
        simp only [chanStep, ← h, List.append_assoc]
    | none =>
        cases hq : st.queue with
        | nil => simp [chanStep, hq, hq ▸ h]
        | cons x rest' =>
            simp only [chanStep, hq]
            rw [← h, hq]
            simp

/-- Claim C7: for every interleaved sequence of sends and (blocking) receive
attempts on the signal channel, the signals received so far followed by
the signals still queued are exactly the signals sent, in order — so
receives return signals in exactly the send order, each consumed
exactly once, with no loss, duplication, or reordering. -/
theorem signal_channel_fifo {α : Type} (ops : List (Option α)) :
    (chanRun ops).received ++ (chanRun ops).queue = (chanRun ops).sent ∧
    (chanRun ops).received <+: (chanRun ops).sent := by
  have h := chanRun_foldl_inv ops ⟨[], [], []⟩ rfl
  exact ⟨h, ⟨(chanRun ops).queue, h⟩⟩

/-- Claim C6: with a job namespace configured (`master` neither `''` nor
`'local'`), the placement function maps shard index `i` to the device
string for `(job, task = i / 8)` (integer division by the fixed
per-task shard width 8); with no job namespace it returns the fixed
local placement, independent of the shard index. -/
theorem placement_task_division (master : String) (index : Nat) :
    (¬(master = "" ∨ master = "local") →
      tpu_job master = some "tpu_worker" ∧
      placement_function (tpu_job master) index =
        "/job:tpu_worker/replica:0/task:" ++
          (toString (index / 8) ++ "/device:CPU:0")) ∧
    ((master = "" ∨ master = "local") →
      placement_function (tpu_job master) index =
        "/replica:0/task:0/device:CPU:0") := by
  constructor
  · intro h
    have hj : tpu_job master = some "tpu_worker" := by
      simp [tpu_job, h]
    refine ⟨hj, ?_⟩
    rw [hj]
    show "/job:" ++ "tpu_worker" ++ "/replica:0/task:" ++
        toString (index / 8) ++ "/device:CPU:0" = _
    rw [show "/job:" ++ "tpu_worker" ++ "/replica:0/task:" =
          "/job:tpu_worker/replica:0/task:" from rfl,
        String.append_assoc]
  · intro h
    have hj : tpu_job master = none := by simp [tpu_job, h]
    rw [hj]
    rfl

/-- Witness for C6 at `master = "grpc://10.0.0.1"`, shard index 17:
task `17 / 8 = 2`. -/
theorem placement_task_division_witness :
    tpu_job "grpc://10.0.0.1" = some "tpu_worker" ∧
    placement_function (tpu_job "grpc://10.0.0.1") 17 =
      "/job:tpu_worker/replica:0/task:" ++ ("2" ++ "/device:CPU:0") :=
  (placement_task_division "grpc://10.0.0.1" 17).1 (by decide)

/-- Claim C5: a user step-function result that carries chief-only hooks or
ordinary per-step hooks makes the validation raise the fatal
contract-violation error and `train_step` does not proceed to build the
execution op; a result with neither kind of hook passes validation
unchanged and the op is built. -/
theorem hook_rejection (spec : EstimatorSpec) :
    (spec.training_chief_hooks ≠ [] ∨ spec.training_hooks ≠ [] →
      ∃ e, verify_estimator_spec spec = Except.error e ∧
        train_step_build spec = Except.error e) ∧
    (spec.training_chief_hooks = [] → spec.training_hooks = [] →
      verify_estimator_spec spec = Except.ok spec ∧
      train_step_build spec = Except.ok ⟨spec.loss, spec.train_op⟩) := by
  constructor
  · intro h
    by_cases hc : spec.training_chief_hooks = []
    · have hh : spec.training_hooks ≠ [] := by
        rcases h with h | h
        · exact absurd hc h
        · exact h
      exact ⟨"training_hooks returned by EstimatorSpec is not supported in TPUEstimator.",
        by simp [verify_estimator_spec, hc, hh],
        by simp [train_step_build, verify_estimator_spec, hc, hh]⟩
    · exact ⟨"training_chief_hooks returned by EstimatorSpec is not supported in TPUEstimator.",
        by simp [verify_estimator_spec, hc],
        by simp [train_step_build, verify_estimator_spec, hc]⟩
  · intro h1 h2
    exact ⟨by simp [verify_estimator_spec, h1, h2],
      by simp [train_step_build, verify_estimator_spec, h1, h2]⟩

/-- Witness for C5: a spec carrying one chief hook is rejected by the
validator and no execution op is built. -/
theorem hook_rejection_witness :
    ∃ e, verify_estimator_spec ⟨0, "op", ["ckpt_hook"], []⟩ = Except.error e ∧
      train_step_build ⟨0, "op", ["ckpt_hook"], []⟩ = Except.error e :=
  (hook_rejection ⟨0, "op", ["ckpt_hook"], []⟩).1 (Or.inl (by decide))

/-- Claim C9: constructing the estimator with a configuration object that is
not a `tpu_config.RunConfig` raises the fatal `ValueError` at
construction (and a proper run config passes); creating the global step
when one is already defined in the target graph raises the fatal
`ValueError` (and an empty graph gets the fresh variable).  No retry or
recovery path exists: each outcome is a single `Except` value. -/
theorem config_and_global_step_errors (config : ConfigObj) (graph : Graph) :
    (isTpuRunConfig config = false →
      tpuEstimator_init config =
        Except.error "`config` must be `tpu_config.RunConfig`") ∧
    (isTpuRunConfig config = true → tpuEstimator_init config = Except.ok ()) ∧
    ((∃ v, graph.global_step = some v) →
      create_global_step graph =
        Except.error "\"global_step\" already exists.") ∧
    (graph.global_step = none →
      create_global_step graph = Except.ok "global_step") := by
  refine ⟨fun h => ?_, fun h => ?_, fun h => ?_, fun h => ?_⟩
  · simp [tpuEstimator_init, h]
  · simp [tpuEstimator_init, h]
  · obtain ⟨v, hv⟩ := h
    simp [create_global_step, hv]
  · simp [create_global_step, h]

/-- Witness for C9: a non-RunConfig object is rejected and a graph with
an existing global step is rejected. -/
theorem config_and_global_step_errors_witness :
    tpuEstimator_init (ConfigObj.otherConfig "RunConfig") =
      Except.error "`config` must be `tpu_config.RunConfig`" ∧
    create_global_step ⟨some "global_step"⟩ =
      Except.error "\"global_step\" already exists." :=
  ⟨(config_and_global_step_errors (ConfigObj.otherConfig "RunConfig")
      ⟨some "global_step"⟩).1 rfl,
   (config_and_global_step_errors (ConfigObj.otherConfig "RunConfig")
      ⟨some "global_step"⟩).2.2.1 ⟨"global_step", rfl⟩⟩

/-- Claim C10: for every mode other than TRAIN, the wrapped model function
invokes the user model function directly with
`(features, labels, mode)` and performs none of the TPU wrapping: no
infeed queue construction, no sharded loop, no hook attachment. -/
theorem non_train_passthrough {F L R : Type} (model_fn : F → L → ModeKeys → R)
    (features : F) (labels : L) (mode : ModeKeys)
    (h : mode ≠ ModeKeys.TRAIN) :
    wrapped_model_fn_apply model_fn features labels mode =
      (some (model_fn features labels mode), [BuildAction.callUserModelFn]) ∧
    BuildAction.buildInfeedQueue ∉
      (wrapped_model_fn_apply model_fn features labels mode).2 ∧
    BuildAction.buildShardedLoop ∉
      (wrapped_model_fn_apply model_fn features labels mode).2 ∧
    BuildAction.attachInfeedHook ∉
      (wrapped_model_fn_apply model_fn features labels mode).2 ∧
    BuildAction.attachLoggingHook ∉
      (wrapped_model_fn_apply model_fn features labels mode).2 := by
  simp [wrapped_model_fn_apply, h]

/-- Witness for C10 at mode EVAL with a concrete user function. -/
theorem non_train_passthrough_witness :
    wrapped_model_fn_apply (fun (a b : Nat) (_ : ModeKeys) => a + b) 2 3
        ModeKeys.EVAL =
      (some 5, [BuildAction.callUserModelFn]) :=
  (non_train_passthrough (fun (a b : Nat) (_ : ModeKeys) => a + b) 2 3
    ModeKeys.EVAL (by decide)).1

theorem filterMap_dictLookup_self (pairs : List (String × Tensor))
    (h : (pairs.map Prod.fst).Nodup) :
    (pairs.map Prod.fst).filterMap (dictLookup pairs) = pairs.map Prod.snd := by
  induction pairs with
  | nil => rfl
  | cons p rest ih =>
    obtain ⟨k, v⟩ := p
    simp only [List.map_cons, List.nodup_cons] at h ⊢
    obtain ⟨hk, hrest⟩ := h
    rw [List.filterMap_cons]
    rw [show dictLookup ((k, v) :: rest) k = some v by simp [dictLookup]]
    rw [List.filterMap_congr (g := dictLookup rest) ?_, ih hrest]
    intro n hn
    have hkn : k ≠ n := fun he => hk (he ▸ hn)
    simp [dictLookup, hkn]

theorem range_filterMap_zip (ns : List String) (vs tail : List Tensor)
    (h : ns.length = vs.length) :
    ((List.range vs.length).filterMap fun i =>
        match ns[i]?, (vs ++ tail)[i]? with
        | some n, some v => some (n, v)
        | _, _ => none) = ns.zip vs := by
  induction ns generalizing vs with
  | nil =>
    cases vs with
    | nil => simp
    | cons v0 vs' => simp at h
  | cons n0 ns' ih =>
    cases vs with
    | nil => simp at h
    | cons v0 vs' =>
      rw [List.length_cons, List.range_succ_eq_map, List.filterMap_cons,
        List.filterMap_map]
      have hfun : ((fun i =>
          match (n0 :: ns')[i]?, ((v0 :: vs') ++ tail)[i]? with
          | some n, some v => some (n, v)
          | _, _ => none) ∘ Nat.succ) = fun i =>
          match ns'[i]?, (vs' ++ tail)[i]? with
          | some n, some v => some (n, v)
          | _, _ => none := by
        funext i
        simp
      rw [hfun, ih vs' (by simpa using h)]
      simp

/-- Claim C3: for a name-addressed feature batch, enqueue-then-dequeue
reconstructs the name→tensor mapping positionally — dequeued position
`i` maps to the name at position `i` of the build-time ordering, and
the final position is the label; for an anonymous feature batch the
enqueued tuple is `[features, label]` (label last) and dequeue returns
that raw tuple unchanged. -/
theorem dequeue_reconstruction (pairs : List (String × Tensor))
    (t labels : Tensor) (h : (pairs.map Prod.fst).Nodup) :
    dequeue_fn (buildInfeed (Features.named pairs) labels).1
        (infeedQueueTransport (buildInfeed (Features.named pairs) labels).2) =
      DequeueResult.nameMapped pairs (some labels) ∧
    (buildInfeed (Features.anon t) labels).2 = [t, labels] ∧
    dequeue_fn (buildInfeed (Features.anon t) labels).1
        (infeedQueueTransport (buildInfeed (Features.anon t) labels).2) =
      DequeueResult.raw [t, labels] := by
  refine ⟨?_, rfl, rfl⟩
  show dequeue_fn (some (pairs.map Prod.fst))
      ((pairs.map Prod.fst).filterMap (dictLookup pairs) ++ [labels]) = _
  rw [filterMap_dictLookup_self pairs h]
  rw [dequeue_fn]
  have hlen : (pairs.map Prod.snd ++ [labels]).length - 1 =
      (pairs.map Prod.snd).length := by simp
  rw [hlen,
    range_filterMap_zip (pairs.map Prod.fst) (pairs.map Prod.snd) [labels]
      (by simp),
    List.zip_map']
  simp

/-- Witness for C3 with a two-feature named batch and an anonymous
batch. -/
theorem dequeue_reconstruction_witness :
    dequeue_fn
        (buildInfeed (Features.named
          [("a", ⟨"f32", [2], 10⟩), ("b", ⟨"i64", [3], 20⟩)])
          ⟨"i32", [], 7⟩).1
        (infeedQueueTransport (buildInfeed (Features.named
          [("a", ⟨"f32", [2], 10⟩), ("b", ⟨"i64", [3], 20⟩)])
          ⟨"i32", [], 7⟩).2) =
      DequeueResult.nameMapped
        [("a", ⟨"f32", [2], 10⟩), ("b", ⟨"i64", [3], 20⟩)]
        (some ⟨"i32", [], 7⟩) ∧
    dequeue_fn
        (buildInfeed (Features.anon ⟨"f32", [4], 5⟩) ⟨"i32", [], 7⟩).1
        (infeedQueueTransport
          (buildInfeed (Features.anon ⟨"f32", [4], 5⟩) ⟨"i32", [], 7⟩).2) =
      DequeueResult.raw [⟨"f32", [4], 5⟩, ⟨"i32", [], 7⟩] :=
  ⟨(dequeue_reconstruction
      [("a", ⟨"f32", [2], 10⟩), ("b", ⟨"i64", [3], 20⟩)]
      ⟨"f32", [4], 5⟩ ⟨"i32", [], 7⟩ (by decide)).1,
   (dequeue_reconstruction
      [("a", ⟨"f32", [2], 10⟩), ("b", ⟨"i64", [3], 20⟩)]
      ⟨"f32", [4], 5⟩ ⟨"i32", [], 7⟩ (by decide)).2.2⟩

theorem repeat_train_step_closed (lossOf : Nat → Int) (n p : Nat)
    (init : Int) (tr : List TEv) :
    training_loop_repeat n (train_step lossOf) ⟨p, init, tr⟩ =
      ⟨p + n, if n = 0 then init else lossOf (p + n - 1),
        tr ++ stepTrace p n⟩ := by
  induction n generalizing p init tr with
  | zero => simp [training_loop_repeat, stepTrace]
  | succ m ih =>
    rw [training_loop_repeat]
    rw [show train_step lossOf ⟨p, init, tr⟩ =
        ⟨p + 1, lossOf p, tr ++ [TEv.runTrainOp p, TEv.readLoss p]⟩ from rfl]
    rw [ih]
    simp only [StepCarry.mk.injEq]
    refine ⟨by omega, ?_, ?_⟩
    · cases m with
      | zero => simp
      | succ k =>
        have h1 : p + 1 + (k + 1) - 1 = p + (k + 1 + 1) - 1 := by omega
        simp [h1]
    · rw [List.append_assoc]
      rfl

/-- Claim C8: the per-shard loop repeats `train_step` exactly
`iterations_per_loop` times seeded with the carried initial loss
(`train_shard` seeds it with the `1e7` constant); every iteration
discards the incoming carried loss and produces its own loss, reading
it only after running its update op, so for `iterations_per_loop ≥ 1`
the loop's outcome is the last iteration's loss and is entirely
independent of the initial carried value. -/
theorem per_shard_loop_discards_initial (lossOf : Nat → Int) (n : Nat)
    (hn : 1 ≤ n) (init init' : Int) :
    (training_loop_repeat n (train_step lossOf) ⟨0, init, []⟩).loss =
      lossOf (n - 1) ∧
    training_loop_repeat n (train_step lossOf) ⟨0, init, []⟩ =
      training_loop_repeat n (train_step lossOf) ⟨0, init', []⟩ ∧
    (training_loop_repeat n (train_step lossOf) ⟨0, init, []⟩).trace =
      stepTrace 0 n ∧
    train_shard lossOf n =
      training_loop_repeat n (train_step lossOf) ⟨0, initial_loss, []⟩ := by
  have hn0 : n ≠ 0 := by omega
  refine ⟨?_, ?_, ?_, rfl⟩
  · rw [repeat_train_step_closed]
    simp [hn0]
  · rw [repeat_train_step_closed, repeat_train_step_closed]
    simp [hn0]
  · rw [repeat_train_step_closed]
    simp

/-- Witness for C8 with three iterations: the result is the third
iteration's loss, for two different initial carried values, and each
loss read follows its update op. -/
theorem per_shard_loop_discards_initial_witness :
    (training_loop_repeat 3 (train_step (fun p => (p : Int) + 100))
        ⟨0, 5, []⟩).loss = 102 ∧
    training_loop_repeat 3 (train_step (fun p => (p : Int) + 100))
        ⟨0, 5, []⟩ =
      training_loop_repeat 3 (train_step (fun p => (p : Int) + 100))
        ⟨0, 777, []⟩ ∧
    (training_loop_repeat 3 (train_step (fun p => (p : Int) + 100))
        ⟨0, 5, []⟩).trace = stepTrace 0 3 :=
  ⟨by simpa using
      (per_shard_loop_discards_initial (fun p => (p : Int) + 100) 3
        (by decide) 5 777).1,
   (per_shard_loop_discards_initial (fun p => (p : Int) + 100) 3
      (by decide) 5 777).2.1,
   (per_shard_loop_discards_initial (fun p => (p : Int) + 100) 3
      (by decide) 5 777).2.2.1⟩

/-- Claim C4: the sharded step executor replicates the identical fixed-count
loop across all `num_shards` shards and returns exactly the
representative (first) shard's final-iteration loss as the aggregate;
no reduction or averaging across shards happens — the result is
unchanged by arbitrary changes to every other shard's losses. -/
theorem shard_loss_selection (num_shards iterations_per_loop : Nat)
    (lossOf : Nat → Nat → Int) (hs : 1 ≤ num_shards)
    (hi : 1 ≤ iterations_per_loop) :
    train_on_tpu_shards num_shards iterations_per_loop lossOf =
      some (lossOf 0 (iterations_per_loop - 1)) ∧
    tpu_shard
        (fun s => (train_shard (lossOf s) iterations_per_loop).loss)
        num_shards true =
      (List.range num_shards).map
        (fun s => (train_shard (lossOf s) iterations_per_loop).loss) ∧
    ∀ lossOf' : Nat → Nat → Int, (∀ p, lossOf' 0 p = lossOf 0 p) →
      train_on_tpu_shards num_shards iterations_per_loop lossOf' =
        train_on_tpu_shards num_shards iterations_per_loop lossOf := by
  have hmain : ∀ L : Nat → Nat → Int,
      train_on_tpu_shards num_shards iterations_per_loop L =
        some (L 0 (iterations_per_loop - 1)) := by
    intro L
    obtain ⟨k, rfl⟩ : ∃ k, num_shards = k + 1 :=
      ⟨num_shards - 1, by omega⟩
    rw [train_on_tpu_shards, tpu_shard]
    simp only [if_neg (by decide : ¬false = true), List.range_succ_eq_map,
      List.map_cons, List.take_cons, List.head?_cons, List.take_zero]
    rw [train_shard, repeat_train_step_closed]
    simp [show iterations_per_loop ≠ 0 by omega]
  refine ⟨hmain lossOf, by simp [tpu_shard], ?_⟩
  intro lossOf' h
  rw [hmain lossOf', hmain lossOf, h]

/-- Witness for C4 with `num_shards = 4`, `iterations_per_loop = 3`,
and shard-distinct deterministic losses `s * 10 + p`: the aggregate is
shard 0's final-iteration loss `2`, not an average across shards. -/
theorem shard_loss_selection_witness :
    train_on_tpu_shards 4 3 (fun s p => (s : Int) * 10 + p) = some 2 := by
  simpa using
    (shard_loss_selection 4 3 (fun s p => (s : Int) * 10 + p)
      (by decide) (by decide)).1

theorem precedes_nil {α : Type} (a b : α) : precedes a b [] := by
  intro n hn
  simp at hn

theorem precedes_concat {α : Type} {a b c : α} {l : List α}
    (h : precedes a b l) (hc : c = b → a ∈ l) : precedes a b (l ++ [c]) := by
  intro n hn
  rw [List.getElem?_append] at hn
  split at hn
  · rename_i hlt
    obtain ⟨m, hm, ha⟩ := h n hn
    refine ⟨m, hm, ?_⟩
    rw [List.getElem?_append, if_pos (by omega)]
    exact ha
  · rename_i hge
    have hb : c = b := by
      rcases Nat.eq_zero_or_pos (n - l.length) with h0 | h0
      · rw [h0] at hn
        simpa using hn
      · rw [show [c][n - l.length]? = none from
            List.getElem?_eq_none
              (by simp only [List.length_cons, List.length_nil]; omega)] at hn
        cases hn
    obtain ⟨m, hm⟩ := List.mem_iff_getElem?.mp (hc hb)
    have hmlt : m < l.length := (List.getElem?_eq_some.mp hm).1
    refine ⟨m, by omega, ?_⟩
    rw [List.getElem?_append, if_pos hmlt]
    exact hm

theorem precedes_concat_ne {α : Type} {a b c : α} {l : List α}
    (h : precedes a b l) (hcb : c ≠ b) : precedes a b (l ++ [c]) :=
  precedes_concat h (fun he => absurd he hcb)

/-- Invariant carried by the lifecycle interleaving system: the init op
has run once the host is past `after_create_session`'s first half; a
live or exited thread implies the init op and the thread start already
happened; an exited thread implies `STOP` was consumed; a shutdown op
in the trace means the session is fully over; and the four ordering
facts of the claim hold of the trace so far. -/
structure SysInv (s : Sys) : Prop where
  host_init : (∀ n, s.host ≠ HostPhase.beforeInit n) → LEv.initOp ∈ s.trace
  thread_started : s.thread ≠ ThreadState.notStarted →
    LEv.initOp ∈ s.trace ∧ LEv.startFeeder ∈ s.trace
  thread_exited : s.thread = ThreadState.exited →
    LEv.stopConsumed ∈ s.trace
  shutdown_done : LEv.shutdownOp ∈ s.trace →
    s.host = HostPhase.done ∧ s.thread = ThreadState.exited
  init_before_start : precedes LEv.initOp LEv.startFeeder s.trace
  init_before_enq : precedes LEv.initOp LEv.enqueueRun s.trace
  start_before_enq : precedes LEv.startFeeder LEv.enqueueRun s.trace
  stop_before_shutdown : precedes LEv.stopConsumed LEv.shutdownOp s.trace

theorem hostStep_inv {s : Sys} (h : SysInv s) : SysInv (hostStep s) := by
  cases hh : s.host with
  | beforeInit n =>
    have hno : LEv.shutdownOp ∉ s.trace := fun hm => by
      have := (h.shutdown_done hm).1
      rw [hh] at this
      cases this
    simp only [hostStep, hh]
    exact
      { host_init := fun _ => by simp
        thread_started := fun ht => by
          obtain ⟨h1, h2⟩ := h.thread_started ht
          exact ⟨List.mem_append_left _ h1, List.mem_append_left _ h2⟩
        thread_exited := fun ht =>
          List.mem_append_left _ (h.thread_exited ht)
        shutdown_done := fun hm => by
          rcases List.mem_append.mp hm with h' | h'
          · exact absurd h' hno
          · simp at h'
        init_before_start := precedes_concat_ne h.init_before_start (by decide)
        init_before_enq := precedes_concat_ne h.init_before_enq (by decide)
        start_before_enq := precedes_concat_ne h.start_before_enq (by decide)
        stop_before_shutdown :=
          precedes_concat_ne h.stop_before_shutdown (by decide) }
  | beforeStart n =>
    have hinit : LEv.initOp ∈ s.trace :=
      h.host_init (fun m hm => by rw [hh] at hm; cases hm)
    have hno : LEv.shutdownOp ∉ s.trace := fun hm => by
      have := (h.shutdown_done hm).1
      rw [hh] at this
      cases this
    simp only [hostStep, hh]
    exact
      { host_init := fun _ => List.mem_append_left _ hinit
        thread_started := fun _ =>
          ⟨List.mem_append_left _ hinit, by simp⟩
        thread_exited := fun ht => by cases ht
        shutdown_done := fun hm => by
          rcases List.mem_append.mp hm with h' | h'
          · exact absurd h' hno
          · simp at h'
        init_before_start :=
          precedes_concat h.init_before_start (fun _ => hinit)
        init_before_enq := precedes_concat_ne h.init_before_enq (by decide)
        start_before_enq := precedes_concat_ne h.start_before_enq (by decide)
        stop_before_shutdown :=
          precedes_concat_ne h.stop_before_shutdown (by decide) }
  | running remaining =>
    have hinit : LEv.initOp ∈ s.trace :=
      h.host_init (fun m hm => by rw [hh] at hm; cases hm)
    have hno : LEv.shutdownOp ∉ s.trace := fun hm => by
      have := (h.shutdown_done hm).1
      rw [hh] at this
      cases this
    cases remaining with
    | zero =>
      simp only [hostStep, hh]
      exact
        { host_init := fun _ => List.mem_append_left _ hinit
          thread_started := fun ht => by
            obtain ⟨h1, h2⟩ := h.thread_started ht
            exact ⟨List.mem_append_left _ h1, List.mem_append_left _ h2⟩
          thread_exited := fun ht =>
            List.mem_append_left _ (h.thread_exited ht)
          shutdown_done := fun hm => by
            rcases List.mem_append.mp hm with h' | h'
            · exact absurd h' hno
            · simp at h'
          init_before_start :=
            precedes_concat_ne h.init_before_start (by decide)
          init_before_enq := precedes_concat_ne h.init_before_enq (by decide)
          start_before_enq :=
            precedes_concat_ne h.start_before_enq (by decide)
          stop_before_shutdown :=
            precedes_concat_ne h.stop_before_shutdown (by decide) }
    | succ k =>
      simp only [hostStep, hh]
      exact
        { host_init := fun _ => List.mem_append_left _ hinit
          thread_started := fun ht => by
            obtain ⟨h1, h2⟩ := h.thread_started ht
            exact ⟨List.mem_append_left _ h1, List.mem_append_left _ h2⟩
          thread_exited := fun ht =>
            List.mem_append_left _ (h.thread_exited ht)
          shutdown_done := fun hm => by
            rcases List.mem_append.mp hm with h' | h'
            · exact absurd h' hno
            · simp at h'
          init_before_start :=
            precedes_concat_ne h.init_before_start (by decide)
          init_before_enq := precedes_concat_ne h.init_before_enq (by decide)
          start_before_enq :=
            precedes_concat_ne h.start_before_enq (by decide)
          stop_before_shutdown :=
            precedes_concat_ne h.stop_before_shutdown (by decide) }
  | joining =>
    have hinit : LEv.initOp ∈ s.trace :=
      h.host_init (fun m hm => by rw [hh] at hm; cases hm)
    by_cases ht : s.thread = ThreadState.exited
    · simp only [hostStep, hh, if_pos ht]
      exact
        { host_init := fun _ => List.mem_append_left _ hinit
          thread_started := fun htt => by
            obtain ⟨h1, h2⟩ := h.thread_started htt
            exact ⟨List.mem_append_left _ h1, List.mem_append_left _ h2⟩
          thread_exited := fun htt =>
            List.mem_append_left _ (h.thread_exited htt)
          shutdown_done := fun _ => ⟨rfl, ht⟩
          init_before_start :=
            precedes_concat_ne h.init_before_start (by decide)
          init_before_enq := precedes_concat_ne h.init_before_enq (by decide)
          start_before_enq :=
            precedes_concat_ne h.start_before_enq (by decide)
          stop_before_shutdown :=
            precedes_concat h.stop_before_shutdown
              (fun _ => h.thread_exited ht) }
    · simp only [hostStep, hh, if_neg ht]
      exact h
  | done =>
    simp only [hostStep, hh]
    exact h

theorem threadStep_inv {s : Sys} (h : SysInv s) : SysInv (threadStep s) := by
  cases ht : s.thread with
  | notStarted =>
    simp only [threadStep, ht]
    exact h
  | exited =>
    simp only [threadStep, ht]
    exact h
  | waiting =>
    have hstart : LEv.initOp ∈ s.trace ∧ LEv.startFeeder ∈ s.trace :=
      h.thread_started (by rw [ht]; exact fun he => by cases he)
    have hno : LEv.shutdownOp ∉ s.trace := fun hm => by
      have := (h.shutdown_done hm).2
      rw [ht] at this
      cases this
    cases hq : s.queue with
    | nil =>
      simp only [threadStep, ht, hq]
      exact h
    | cons sig rest =>
      cases sig with
      | NEXT_BATCH =>
        simp only [threadStep, ht, hq]
        exact
          { host_init := fun hno' =>
              List.mem_append_left _ (h.host_init hno')
            thread_started := fun _ =>
              ⟨List.mem_append_left _ hstart.1,
               List.mem_append_left _ hstart.2⟩
            thread_exited := fun htt => by cases htt
            shutdown_done := fun hm => by
              rcases List.mem_append.mp hm with h' | h'
              · exact absurd h' hno
              · simp at h'
            init_before_start :=
              precedes_concat_ne h.init_before_start (by decide)
            init_before_enq :=
              precedes_concat_ne h.init_before_enq (by decide)
            start_before_enq :=
              precedes_concat_ne h.start_before_enq (by decide)
            stop_before_shutdown :=
              precedes_concat_ne h.stop_before_shutdown (by decide) }
      | STOP =>
        simp only [threadStep, ht, hq]
        exact
          { host_init := fun hno' =>
              List.mem_append_left _ (h.host_init hno')
            thread_started := fun _ =>
              ⟨List.mem_append_left _ hstart.1,
               List.mem_append_left _ hstart.2⟩
            thread_exited := fun _ => by simp
            shutdown_done := fun hm => by
              rcases List.mem_append.mp hm with h' | h'
              · exact absurd h' hno
              · simp at h'
            init_before_start :=
              precedes_concat_ne h.init_before_start (by decide)
            init_before_enq :=
              precedes_concat_ne h.init_before_enq (by decide)
            start_before_enq :=
              precedes_concat_ne h.start_before_enq (by decide)
            stop_before_shutdown :=
              precedes_concat_ne h.stop_before_shutdown (by decide) }
  | working remaining =>
    have hstart : LEv.initOp ∈ s.trace ∧ LEv.startFeeder ∈ s.trace :=
      h.thread_started (by rw [ht]; exact fun he => by cases he)
    have hno : LEv.shutdownOp ∉ s.trace := fun hm => by
      have := (h.shutdown_done hm).2
      rw [ht] at this
      cases this
    cases remaining with
    | zero =>
      simp only [threadStep, ht]
      exact
        { host_init := h.host_init
          thread_started := fun _ => hstart
          thread_exited := fun htt => by cases htt
          shutdown_done := fun hm => absurd hm hno
          init_before_start := h.init_before_start
          init_before_enq := h.init_before_enq
          start_before_enq := h.start_before_enq
          stop_before_shutdown := h.stop_before_shutdown }
    | succ k =>
      simp only [threadStep, ht]
      exact
        { host_init := fun hno' =>
            List.mem_append_left _ (h.host_init hno')
          thread_started := fun _ =>
            ⟨List.mem_append_left _ hstart.1,
             List.mem_append_left _ hstart.2⟩
          thread_exited := fun htt => by cases htt
          shutdown_done := fun hm => by
            rcases List.mem_append.mp hm with h' | h'
            · exact absurd h' hno
            · simp at h'
          init_before_start :=
            precedes_concat_ne h.init_before_start (by decide)
          init_before_enq :=
            precedes_concat h.init_before_enq (fun _ => hstart.1)
          start_before_enq :=
            precedes_concat h.start_before_enq (fun _ => hstart.2)
          stop_before_shutdown :=
            precedes_concat_ne h.stop_before_shutdown (by decide) }

theorem sysInit_inv (numRuns iterations : Nat) :
    SysInv (sysInit numRuns iterations) :=
  { host_init := fun hno => absurd rfl (hno numRuns)
    thread_started := fun ht => absurd rfl ht
    thread_exited := fun ht => by cases ht
    shutdown_done := fun hm => by simp [sysInit] at hm
    init_before_start := precedes_nil _ _
    init_before_enq := precedes_nil _ _
    start_before_enq := precedes_nil _ _
    stop_before_shutdown := precedes_nil _ _ }

theorem sysRun_inv (choices : List Bool) (numRuns iterations : Nat) :
    SysInv (sysRun choices numRuns iterations) := by
  rw [sysRun]
  generalize hs : sysInit numRuns iterations = s
  have h : SysInv s := hs ▸ sysInit_inv numRuns iterations
  clear hs
  induction choices generalizing s with
  | nil => exact h
  | cons c rest ih =>
    rw [List.foldl_cons]
    apply ih
    cases c
    · exact threadStep_inv h
    · exact hostStep_inv h

/-- Claim C2: in every session — i.e. under every interleaving of the host's
hook callbacks with the feeder thread — the accelerator initialization
op runs before the feeder thread is started and before any enqueue is
issued (the feeder start itself precedes every enqueue), and the
shutdown op runs only after the STOP signal has been consumed, at which
point the feeder thread has fully exited. -/
theorem lifecycle_ordering (choices : List Bool) (numRuns iterations : Nat) :
    precedes LEv.initOp LEv.startFeeder
      (sysRun choices numRuns iterations).trace ∧
    precedes LEv.initOp LEv.enqueueRun
      (sysRun choices numRuns iterations).trace ∧
    precedes LEv.startFeeder LEv.enqueueRun
      (sysRun choices numRuns iterations).trace ∧
    precedes LEv.stopConsumed LEv.shutdownOp
      (sysRun choices numRuns iterations).trace ∧
    (LEv.shutdownOp ∈ (sysRun choices numRuns iterations).trace →
      (sysRun choices numRuns iterations).thread = ThreadState.exited) := by
  have h := sysRun_inv choices numRuns iterations
  exact ⟨h.init_before_start, h.init_before_enq, h.start_before_enq,
    h.stop_before_shutdown, fun hm => (h.shutdown_done hm).2⟩

/-- Witness for C2 on a concrete complete session: one `before_run`
call, one iteration per signal, and a schedule that reaches the
shutdown op; the feeder thread has exited when shutdown runs. -/
theorem lifecycle_ordering_witness :
    (sysRun [true, true, true, false, false, false, true, false, true]
        1 1).thread = ThreadState.exited :=
  (lifecycle_ordering [true, true, true, false, false, false, true, false,
    true] 1 1).2.2.2.2 (by decide)

end TpuEstimatorModel
